import Mathlib

/-!
Shallow embedding of the SoapyTCPRemote repository: the jitter pipe
(`pipebuf_t`, `pipewrite`, `piperead`), the line codec (`SoapyRPC`),
the server's connection typing, RPC dispatch and `handleSetupStream`,
the data-pump channel interleaving with the client's `readStream`
deinterleaving, and the client stream activation state.

Bytes are modelled as `Nat`, C strings as `List Char` (or `String` where
only equality matters), pointers that may be `NULL` as `Option`.
-/

namespace SoapyTCP

/-! ## Jitter pipe (SoapyTCPServer.cpp lines 21-26, 57-156) -/

/-- Embedding of `pipebuf_t`: a byte ring of total size `len`, write index
`inIdx` (field `in`) and read index `outIdx` (field `out`).  `buf` holds the
`len` bytes of backing store. -/
structure Pipebuf where
  len : Nat
  buf : List Nat
  inIdx : Nat
  outIdx : Nat
deriving DecidableEq, Repr

/-- Embedding of `newpipe(size)`: indices start at 0; the malloc'd backing
store is modelled as zeros (its initial contents are never read before being
written). -/
def newpipe (size : Nat) : Pipebuf :=
  { len := size, buf := List.replicate size 0, inIdx := 0, outIdx := 0 }

/-- Used byte count, as computed at lines 80-81 and 126-127:
`us = in - out; if (us < 0) us += len;`. -/
def usedB (p : Pipebuf) : Nat :=
  if p.inIdx < p.outIdx then p.inIdx + p.len - p.outIdx else p.inIdx - p.outIdx

/-- Available space, line 82: `av = len - us - 1`. -/
def availB (p : Pipebuf) : Nat :=
  p.len - usedB p - 1

/-- One iteration of the write copy loop (lines 100-104):
store at `in`, post-increment, wrap to 0 when the index reaches `len`. -/
def writeByte (p : Pipebuf) (b : Nat) : Pipebuf :=
  { p with
    buf := p.buf.set p.inIdx b,
    inIdx := if p.inIdx + 1 ≥ p.len then 0 else p.inIdx + 1 }

/-- The whole write copy loop: bytes are moved one at a time in order. -/
def writeBytes (p : Pipebuf) (bs : List Nat) : Pipebuf :=
  bs.foldl writeByte p

/-- One iteration of the read copy loop (lines 144-148): load at `out`,
post-increment, wrap to 0 when the index reaches `len`. -/
def readByte (p : Pipebuf) : Nat × Pipebuf :=
  (p.buf.getD p.outIdx 0,
   { p with outIdx := if p.outIdx + 1 ≥ p.len then 0 else p.outIdx + 1 })

/-- The whole read copy loop for a given byte count. -/
def readBytes : Pipebuf → Nat → List Nat × Pipebuf
  | p, 0 => ([], p)
  | p, k + 1 =>
    let r := readByte p
    let rs := readBytes r.2 k
    (r.1 :: rs.1, rs.2)

/-- Embedding of `pipewrite(src, sz, num, pipe, block)` (lines 69-112).
`src`/`pipe` are `none` for `NULL` pointers; `src` otherwise carries the
bytes reachable from the pointer.  The outer `none` models the blocking
branch parking on `pthread_cond_wait` (line 86): in this sequential model no
other thread can signal, so the call does not return.  The result is the
returned `int` and the pipe after the call; note the argument-check and the
non-blocking insufficient-space branch both return `rv = -1` (lines 70, 89). -/
def pipewrite (src : Option (List Nat)) (sz num : Nat) (pipe : Option Pipebuf)
    (block : Bool) : Option (Int × Option Pipebuf) :=
  if src = none ∨ sz = 0 ∨ num = 0 ∨ pipe = none then some (-1, pipe)
  else
    let data := src.getD []
    let p := pipe.getD (newpipe 0)
    let av := availB p
    if av < sz then
      if block then none else some (-1, some p)
    else
      let ft := min (av / sz) num
      some ((ft : Int), some (writeBytes p (data.take (ft * sz))))

/-- Embedding of `piperead(dst, sz, num, pipe, block)` (lines 115-156).
`dst` only matters for its `NULL`-ness, so it is `Option Unit`; the bytes
stored through it are returned as the middle component.  The non-blocking
insufficient-data branch returns 0 (line 133), unlike `pipewrite`. -/
def piperead (dst : Option Unit) (sz num : Nat) (pipe : Option Pipebuf)
    (block : Bool) : Option (Int × List Nat × Option Pipebuf) :=
  if dst = none ∨ sz = 0 ∨ num = 0 ∨ pipe = none then some (-1, [], pipe)
  else
    let p := pipe.getD (newpipe 0)
    let us := usedB p
    if us < sz then
      if block then none else some (0, [], some p)
    else
      let nm := min (us / sz) num
      let r := readBytes p (nm * sz)
      some ((nm : Int), r.1, some r.2)

/-- Well-formedness of a pipe state: the backing store has size `len` and
both indices are in range (true of `newpipe` and preserved by the code). -/
def Pipewf (p : Pipebuf) : Prop :=
  p.buf.length = p.len ∧ p.inIdx < p.len ∧ p.outIdx < p.len

/-- The bytes currently queued in the ring, oldest first: positions
`out, out+1, …` (mod `len`), `usedB` of them. -/
def contents (p : Pipebuf) : List Nat :=
  (List.range (usedB p)).map fun i => p.buf.getD ((p.outIdx + i) % p.len) 0

/-- One jitter-pipe call in a sequential trace: a `pipewrite` with the given
source bytes and item count, or a `piperead` with the given item count. -/
inductive PipeOp where
  | wr (data : List Nat) (num : Nat) (block : Bool)
  | rd (num : Nat) (block : Bool)
deriving DecidableEq, Repr

/-- Sanity condition on an operation: a write's source buffer holds the
`num * sz` bytes the call may read from it (as every caller in the code
guarantees). -/
def opWriteLenOk (sz : Nat) : PipeOp → Bool
  | .wr data num _ => num * sz ≤ data.length
  | .rd _ _ => true

/-- Run one operation.  Returns the new pipe, the bytes that entered the
pipe, and the bytes that left it; `none` when the call blocks forever in
this sequential model. -/
def runOp (sz : Nat) (p : Pipebuf) : PipeOp → Option (Pipebuf × List Nat × List Nat)
  | .wr data num block =>
    match pipewrite (some data) sz num (some p) block with
    | some (rv, some p') => some (p', data.take (rv.toNat * sz), [])
    | _ => none
  | .rd num block =>
    match piperead (some ()) sz num (some p) block with
    | some (_, bs, some p') => some (p', [], bs)
    | _ => none

/-- Run a sequence of operations, collecting per-operation written and read
byte lists. -/
def runOps (sz : Nat) : Pipebuf → List PipeOp → Option (Pipebuf × List (List Nat) × List (List Nat))
  | p, [] => some (p, [], [])
  | p, op :: ops =>
    match runOp sz p op with
    | none => none
    | some (p', w, r) =>
      match runOps sz p' ops with
      | none => none
      | some (pN, ws, rs) => some (pN, w :: ws, r :: rs)

/-! ## Line codec (SoapyRPC.hpp) -/

/-- Bytes emitted by `SoapyRPC::writeString(s)`:
`fprintf(handle, "%s\n", s.c_str())` (line 171). -/
def writeString (s : List Char) : List Char :=
  s ++ ['\n']

/-- Bytes emitted by `SoapyRPC::writeKwargs(args)` (lines 173-184): one
`key=value` line per pair in iteration order, then the single `"="`
terminator line.  The map is represented by its association list in
`std::map` iteration order (ascending keys). -/
def writeKwargs (m : List (List Char × List Char)) : List Char :=
  (m.map fun kv => writeString (kv.1 ++ '=' :: kv.2)).flatten ++ writeString ['=']

/-- Embedding of `SoapyRPC::readString` (lines 194-203): one
`fgets(line, sizeof(line), handle)` chunk through the 256-byte buffer
(`char line[256]`, so at most 255 characters per call, stopping after a
newline), then the final byte removed (`line[strlen(line)-1] = 0`).  On an
empty stream `fgets` fails and the empty string is returned.  The chunk is
everything up to and including the first newline when that newline falls
within the first 255 characters; otherwise it is the first 255 characters
(or the whole stream at EOF without a newline), and the byte the code then
strips is a data byte. -/
def readString (stream : List Char) : List Char × List Char :=
  if stream = [] then ([], [])
  else
    let pre := stream.takeWhile (· ≠ '\n')
    let chunk :=
      if pre.length + 1 ≤ 255 ∧ pre.length < stream.length then
        stream.take (pre.length + 1)
      else stream.take 255
    (chunk.dropLast, stream.drop chunk.length)

/-- Strict lexicographic order on `char` lists, as `std::string` `operator<`
orders `std::map` keys. -/
def charListLt : List Char → List Char → Bool
  | [], [] => false
  | [], _ :: _ => true
  | _ :: _, [] => false
  | a :: as, b :: bs => if a < b then true else if b < a then false else charListLt as bs

/-- Embedding of the `std::map` assignment `args[k] = v`: insert-or-assign
keeping the association list sorted by key. -/
def kwInsert : List (List Char × List Char) → List Char → List Char → List (List Char × List Char)
  | [], k, v => [(k, v)]
  | (k', v') :: rest, k, v =>
    if k = k' then (k, v) :: rest
    else if charListLt k k' then (k, v) :: (k', v') :: rest
    else (k', v') :: kwInsert rest k v

/-- Loop body of `SoapyRPC::readKwargs` (lines 204-218): read a line; a line
shorter than 2 characters terminates; otherwise find the first `=`.  When
there is none, `find` returns `npos` and `substr(0, npos)`/`substr(npos+1)`
(the latter by unsigned wrap-around to `substr(0)`) both yield the whole
line; when it is at position 0 the line is ignored; otherwise the line
splits into key and value. -/
def readKwargsAux (stream : List Char) (args : List (List Char × List Char)) :
    List (List Char × List Char) × List Char :=
  if hs : stream = [] then (args, [])
  else
    let r := readString stream
    if r.1.length < 2 then (args, r.2)
    else
      let p := r.1.findIdx (· = '=')
      let args' :=
        if p = r.1.length then kwInsert args r.1 r.1
        else if 0 < p then kwInsert args (r.1.take p) (r.1.drop (p + 1))
        else args
      readKwargsAux r.2 args'
termination_by stream.length
decreasing_by
  have hpos : 0 < stream.length := List.length_pos.mpr hs
  simp only [readString, if_neg hs]
  rw [List.length_drop]
  have hA : 0 < (if (stream.takeWhile (· ≠ '\n')).length + 1 ≤ 255 ∧
      (stream.takeWhile (· ≠ '\n')).length < stream.length then
        stream.take ((stream.takeWhile (· ≠ '\n')).length + 1)
      else stream.take 255).length := by
    split
    · rw [List.length_take]
      exact lt_min_iff.mpr ⟨by omega, hpos⟩
    · rw [List.length_take]
      exact lt_min_iff.mpr ⟨by omega, hpos⟩
  omega

/-- Embedding of `SoapyRPC::readKwargs` (lines 204-218): decode lines into a
map (sorted association list), returning it with the unconsumed stream. -/
def readKwargs (stream : List Char) : List (List Char × List Char) × List Char :=
  readKwargsAux stream []

/-! ## RPC codes (SoapyRPC.hpp enum) and server dispatch -/

def TCPREMOTE_RPC_LOAD : Int := 0
def TCPREMOTE_DATA_SEND : Int := 1
def TCPREMOTE_DATA_RECV : Int := 2
def TCPREMOTE_GET_HARDWARE_KEY : Int := 3
def TCPREMOTE_GET_HARDWARE_INFO : Int := 4
def TCPREMOTE_SET_FRONTEND_MAPPING : Int := 5
def TCPREMOTE_GET_FRONTEND_MAPPING : Int := 6
def TCPREMOTE_GET_NUM_CHANNELS : Int := 7
def TCPREMOTE_GET_CHANNEL_INFO : Int := 8
def TCPREMOTE_GET_FULL_DUPLEX : Int := 9
def TCPREMOTE_GET_STREAM_FORMATS : Int := 10
def TCPREMOTE_GET_STREAM_NATIVE_FORMAT : Int := 11
def TCPREMOTE_GET_STREAM_ARGS_INFO : Int := 12
def TCPREMOTE_SETUP_STREAM : Int := 13
def TCPREMOTE_CLOSE_STREAM : Int := 14
def TCPREMOTE_GET_STREAM_MTU : Int := 15
def TCPREMOTE_ACTIVATE_STREAM : Int := 16
def TCPREMOTE_DEACTIVATE_STREAM : Int := 17
def TCPREMOTE_LIST_ANTENNAS : Int := 18
def TCPREMOTE_SET_ANTENNA : Int := 19
def TCPREMOTE_GET_ANTENNA : Int := 20
def TCPREMOTE_LIST_GAINS : Int := 33
def TCPREMOTE_HAS_GAIN_MODE : Int := 34
def TCPREMOTE_SET_GAIN_MODE : Int := 35
def TCPREMOTE_GET_GAIN_MODE : Int := 36
def TCPREMOTE_SET_GAIN : Int := 37
def TCPREMOTE_SET_GAIN_NAMED : Int := 38
def TCPREMOTE_GET_GAIN : Int := 39
def TCPREMOTE_GET_GAIN_NAMED : Int := 40
def TCPREMOTE_GET_GAIN_RANGE : Int := 41
def TCPREMOTE_GET_GAIN_RANGE_NAMED : Int := 42
def TCPREMOTE_SET_FREQUENCY : Int := 43
def TCPREMOTE_SET_FREQUENCY_NAMED : Int := 44
def TCPREMOTE_GET_FREQUENCY : Int := 45
def TCPREMOTE_GET_FREQUENCY_NAMED : Int := 46
def TCPREMOTE_LIST_FREQUENCIES : Int := 47
def TCPREMOTE_GET_FREQUENCY_RANGE : Int := 48
def TCPREMOTE_GET_FREQUENCY_RANGE_NAMED : Int := 49
def TCPREMOTE_GET_FREQUENCY_ARGS_INFO : Int := 50
def TCPREMOTE_SET_SAMPLE_RATE : Int := 51
def TCPREMOTE_GET_SAMPLE_RATE : Int := 52
def TCPREMOTE_GET_SAMPLE_RATE_RANGE : Int := 53

/-- Modelled from the spec: `TCPREMOTE_LOG_STREAM` is referenced by the
server (`handleListen`, line 446) but not defined under src/; the spec pins
its value: "`3` = LOG" (§6, connection typing). -/
def TCPREMOTE_LOG_STREAM : Int := 3

/-- Modelled from the spec: `TCPREMOTE_DROP_RPC`, "a dedicated tag" that
closes the RPC connection gracefully (§4.5), is referenced by the server and
client but not defined under src/.  Its numeric value is not recorded; any
value distinct from the handled API tags preserves the dispatch behaviour,
and the next free enum slot is chosen here. -/
def TCPREMOTE_DROP_RPC : Int := 54

/-- Modelled from the spec: `TCPREMOTE_RPC_SEP`, "a fixed separator string
written as a line" preceding every RPC request (§4.1), is referenced by the
server (`handleRPC`, line 970) but its text is not under src/.  Any fixed
non-numeric line plays the role. -/
def TCPREMOTE_RPC_SEP : String := "====="

/-- Case labels of the `handleRPC` switch (lines 981-1074) other than
`TCPREMOTE_DROP_RPC`, in source order. -/
def handledTags : List Int :=
  [TCPREMOTE_GET_HARDWARE_KEY, TCPREMOTE_GET_HARDWARE_INFO,
   TCPREMOTE_SET_FRONTEND_MAPPING, TCPREMOTE_GET_FRONTEND_MAPPING,
   TCPREMOTE_GET_NUM_CHANNELS, TCPREMOTE_GET_CHANNEL_INFO,
   TCPREMOTE_GET_FULL_DUPLEX, TCPREMOTE_GET_STREAM_FORMATS,
   TCPREMOTE_GET_STREAM_NATIVE_FORMAT, TCPREMOTE_GET_STREAM_ARGS_INFO,
   TCPREMOTE_SETUP_STREAM, TCPREMOTE_CLOSE_STREAM, TCPREMOTE_GET_STREAM_MTU,
   TCPREMOTE_ACTIVATE_STREAM, TCPREMOTE_DEACTIVATE_STREAM,
   TCPREMOTE_LIST_ANTENNAS, TCPREMOTE_SET_ANTENNA, TCPREMOTE_GET_ANTENNA,
   TCPREMOTE_LIST_GAINS, TCPREMOTE_HAS_GAIN_MODE, TCPREMOTE_SET_GAIN_MODE,
   TCPREMOTE_GET_GAIN_MODE, TCPREMOTE_SET_GAIN, TCPREMOTE_SET_GAIN_NAMED,
   TCPREMOTE_GET_GAIN, TCPREMOTE_GET_GAIN_NAMED, TCPREMOTE_GET_GAIN_RANGE,
   TCPREMOTE_GET_GAIN_RANGE_NAMED, TCPREMOTE_SET_FREQUENCY,
   TCPREMOTE_SET_FREQUENCY_NAMED, TCPREMOTE_GET_FREQUENCY,
   TCPREMOTE_GET_FREQUENCY_NAMED, TCPREMOTE_LIST_FREQUENCIES,
   TCPREMOTE_GET_FREQUENCY_RANGE, TCPREMOTE_GET_FREQUENCY_RANGE_NAMED,
   TCPREMOTE_GET_FREQUENCY_ARGS_INFO, TCPREMOTE_SET_SAMPLE_RATE,
   TCPREMOTE_GET_SAMPLE_RATE, TCPREMOTE_GET_SAMPLE_RATE_RANGE]

/-- Result of the front end of `handleRPC` (lines 969-1074) on one request:
drop the connection, dispatch to the case handler for a tag, or take the
`default` branch, which writes the given reply integers and returns 0. -/
inductive RpcStep where
  | drop
  | invoke (tag : Int)
  | reply (written : List Int)
deriving DecidableEq, Repr

/-- Embedding of the `handleRPC` request path (lines 969-987, without the
poll-error case): `sep` is the first line read, `call` the tag integer read
next.  A missing separator or a negative tag drops the connection; the
`TCPREMOTE_DROP_RPC` case drops it; known tags dispatch; the `default`
branch writes the single integer -1000 and keeps the connection. -/
def handleRPCStep (sep : String) (call : Int) : RpcStep :=
  if sep ≠ TCPREMOTE_RPC_SEP then .drop
  else if call < 0 then .drop
  else if call = TCPREMOTE_DROP_RPC then .drop
  else if call ∈ handledTags then .invoke call
  else .reply [-1000]

/-- Effect of one `handleRPC` step on the id set of `s_connections`: only a
drop erases the record (`dropRPC`, line 959); every other outcome leaves the
registry untouched, so the connection is polled again for the next request. -/
def rpcRegistryAfter (reg : List Int) (fd : Int) : RpcStep → List Int
  | .drop => reg.erase fd
  | .invoke _ => reg
  | .reply _ => reg

/-! ## Connection typing (SoapyTCPServer.cpp handleListen, lines 420-455) -/

/-- Outcome selected for a freshly accepted socket. -/
inductive ConnOutcome where
  | rpc
  | data (typ : Int)
  | log
  | closed
deriving DecidableEq, Repr

/-- Embedding of the typing dispatch (lines 442-452): `type = buf[0]-'0'`,
then `createRpc` / `createLog` / `createData` / close-as-unknown, in source
order. -/
def handleListenType (firstByte : Nat) : ConnOutcome :=
  let typ : Int := (firstByte : Int) - 48
  if typ = TCPREMOTE_RPC_LOAD then .rpc
  else if typ = TCPREMOTE_LOG_STREAM then .log
  else if typ = TCPREMOTE_DATA_SEND ∨ typ = TCPREMOTE_DATA_RECV then .data typ
  else .closed

/-- Registry ids after `handleListen` handles first byte `firstByte` on
socket `sock`: `createData` always inserts (line 207); `createRpc` inserts
only when `SoapySDR::Device::make` succeeds (`rpcMakeOk`, lines 185-193);
`createLog` inserts only when the level read succeeds (`logReadOk`, lines
227-234); an unknown type closes the socket without touching the map. -/
def handleListenRegistry (reg : List Int) (sock : Int) (firstByte : Nat)
    (rpcMakeOk logReadOk : Bool) : List Int :=
  match handleListenType firstByte with
  | .rpc => if rpcMakeOk then reg ++ [sock] else reg
  | .data _ => reg ++ [sock]
  | .log => if logReadOk then reg ++ [sock] else reg
  | .closed => reg

/-! ## handleSetupStream (SoapyTCPServer.cpp lines 553-598) -/

/-- Embedding of `g_frameSizes` (SoapyRPC.hpp lines 17-19). -/
def g_frameSizes : List (String × Nat) :=
  [("CS8", 2), ("CS16", 4), ("CF32", 8)]

/-- Map lookup in `g_frameSizes` (`find` returning end = `none`). -/
def lookupFrameSize (fmt : String) : Option Nat :=
  (g_frameSizes.find? fun kv => kv.1 == fmt).map (·.2)

/-- Embedding of `atoi` on the channel tokens: optional sign after spaces,
then leading decimal digits; anything else gives 0. -/
def atoi (s : List Char) : Int :=
  let s1 := s.dropWhile (· = ' ')
  let digits : List Char → Nat := fun t =>
    (t.takeWhile (·.isDigit)).foldl (fun a c => a * 10 + (c.toNat - 48)) 0
  match s1 with
  | '-' :: r => -(digits r : Int)
  | '+' :: r => (digits r : Int)
  | _ => (digits s1 : Int)

/-- Split a char list at every occurrence of `c`, keeping empty fields, as
the `find(' ', cur)`/`substr` loop at lines 575-581 does. -/
def splitOnChar (c : Char) : List Char → List (List Char)
  | [] => [[]]
  | x :: xs =>
    let r := splitOnChar c xs
    if x = c then [] :: r
    else
      match r with
      | [] => [[x]]
      | h :: t => (x :: h) :: t

/-- Channel-list parsing of `handleSetupStream` (lines 574-581): split the
space-separated list and `atoi` each token. -/
def parseChannels (chans : List Char) : List Int :=
  (splitOnChar ' ' chans).map atoi

/-- Data-connection fields of `ConnectionInfo` that `handleSetupStream`
assigns (lines 583-589).  `dev` is the owning RPC connection's device
handle, `stream` the `SoapySDR::Stream*` returned by the device
(`none` = `NULL`). -/
structure DataConn where
  dev : Option Nat
  direction : Int
  format : String
  channels : List Int
  stream : Option Nat
deriving DecidableEq, Repr

/-- Lookup in the `s_connections` map restricted to data connections. -/
def regFind (reg : List (Int × DataConn)) (id : Int) : Option DataConn :=
  (reg.find? fun e => e.1 == id).map (·.2)

/-- In-place update of the registry entry (`s_connections.at(dataId)` is a
reference, lines 583-589 mutate it). -/
def regSet (reg : List (Int × DataConn)) (id : Int) (d : DataConn) :
    List (Int × DataConn) :=
  reg.map fun e => if e.1 == id then (id, d) else e

/-- Insertion into the `conn.dataIds` `unordered_set` (line 595). -/
def idInsert (ids : List Int) (id : Int) : List Int :=
  if id ∈ ids then ids else ids ++ [id]

/-- Embedding of `handleSetupStream` (lines 553-598).  `connDev` is
`conn.dev`, `devStream` the result of `conn.dev->setupStream(...)`
(`none` = `NULL`).  Returns the reply integers written in order, the updated
registry, and the updated `conn.dataIds`.  Note the source writes -4 on a
`NULL` stream and then falls through to the `// all good!` tail, which also
inserts `dataId` and writes it as a second reply. -/
def handleSetupStream (reg : List (Int × DataConn)) (connDataIds : List Int)
    (connDev : Option Nat) (dataId direction : Int) (fmt : String)
    (chans : List Char) (devStream : Option Nat) :
    List Int × List (Int × DataConn) × List Int :=
  match regFind reg dataId with
  | none => ([-1], reg, connDataIds)
  | some _ =>
    if (lookupFrameSize fmt).isNone then ([-2], reg, connDataIds)
    else
      let channels := parseChannels chans
      let data' : DataConn :=
        { dev := connDev, direction := direction, format := fmt,
          channels := channels, stream := devStream }
      let reg' := regSet reg dataId data'
      let replies := if devStream.isNone then [-4, dataId] else [dataId]
      (replies, reg', idInsert connDataIds dataId)

/-! ## Client driver (SoapyTCPRemote.cpp) -/

/-- Client-side `SoapySDR::Stream` record (lines 16-24). -/
structure ClientStream where
  netSock : Int
  remoteId : Int
  numChans : Int
  fSize : Nat
  running : Bool
deriving DecidableEq, Repr

/-- Embedding of `SoapyTCPRemote::activateStream` (lines 297-311): a running
stream returns 0 at once; otherwise the tag and `remoteId` are written and
`reply` models the integer read back.  Result: return value, stream state
after the call, and the RPC request integers written (empty = no RPC
issued). -/
def activateStream (st : ClientStream) (reply : Int) :
    Int × ClientStream × List Int :=
  if st.running then (0, st, [])
  else
    (reply,
     if reply = 0 then { st with running := true } else st,
     [TCPREMOTE_ACTIVATE_STREAM, st.remoteId])

/-- Embedding of `SoapyTCPRemote::deactivateStream` (lines 313-324),
symmetric to activation. -/
def deactivateStream (st : ClientStream) (reply : Int) :
    Int × ClientStream × List Int :=
  if !st.running then (0, st, [])
  else
    (reply,
     if reply = 0 then { st with running := false } else st,
     [TCPREMOTE_DEACTIVATE_STREAM, st.remoteId])

/-- Lines written on the RPC socket by `SoapyTCPRemote::getHardwareKey`
(lines 96-101): only the tag integer via `writeInteger`
(`fprintf(handle, "%d\n", i)`) — no sentinel line precedes it. -/
def getHardwareKeyRequest : List String :=
  [toString TCPREMOTE_GET_HARDWARE_KEY]

/-! ## Channel interleaving (server dataPump / client readStream) -/

/-- Server interleave loop (SoapyTCPServer.cpp 388-396): for each element
index `idx < nread` and each channel buffer in order, copy `fSize` bytes
from offset `idx * fSize` of that channel buffer into the flat wire
buffer. -/
def interleave (fSize nread : Nat) (buffs : List (List Nat)) : List Nat :=
  (List.range nread).flatMap fun idx =>
    buffs.flatMap fun cb => (cb.drop (idx * fSize)).take fSize

/-- Client `readStream` copy loop (SoapyTCPRemote.cpp 370-378) restricted to
channel `c`, in the case `fmtout == fmtwire` where `cnv` is `memcpy` and
`bSize = fSize`, parameterised by the loop bound `status`: the bytes landing
in channel `c`'s buffer are, for each iteration `e < status`, the `fSize`
bytes of the wire buffer at offset `(e * numChans + c) * fSize`.  Offsets
past the received bytes (the loop's overrun reads) yield the empty slice in
this model.  The bound the code actually passes is `readStreamElems`. -/
def deinterleaveChan (fSize numChans status c : Nat) (swamp : List Nat) : List Nat :=
  (List.range status).flatMap fun e =>
    (swamp.drop ((e * numChans + c) * fSize)).take fSize

/-- Loop bound computed by `readStream` (SoapyTCPRemote.cpp 354, 359):
`status = read(...)` returns the byte count, then `status /= stream->fSize`
divides by the frame size — so for a full wire read of `nread` elements of
`numChans` channels it yields the frame count `nread * numChans`, not the
element count `nread`. -/
def readStreamElems (fSize : Nat) (wire : List Nat) : Nat :=
  wire.length / fSize

/-- Bytes the `readStream` copy loop stores into channel `c`'s buffer for the
received wire bytes, with the loop bound the code actually computes. -/
def readStreamChan (fSize numChans c : Nat) (wire : List Nat) : List Nat :=
  deinterleaveChan fSize numChans (readStreamElems fSize wire) c wire

/-! ### Ring-buffer arithmetic -/

theorem wrap_mod (L x : Nat) (hx : x < 2 * L) : x % L = if x < L then x else x - L := by
  split
  next h => exact Nat.mod_eq_of_lt h
  next h =>
    rw [Nat.mod_eq_sub_mod (Nat.le_of_not_lt h)]
    exact Nat.mod_eq_of_lt (by omega)

theorem usedB_lt_len (p : Pipebuf) (h : Pipewf p) : usedB p < p.len := by
  obtain ⟨_, hi, ho⟩ := h
  unfold usedB
  split <;> omega

theorem inIdx_eq (p : Pipebuf) (h : Pipewf p) :
    p.inIdx = (p.outIdx + usedB p) % p.len := by
  obtain ⟨_, hi, ho⟩ := h
  unfold usedB
  split
  next h1 =>
    have e : p.outIdx + (p.inIdx + p.len - p.outIdx) = p.inIdx + p.len := by omega
    rw [e, Nat.add_mod_right, Nat.mod_eq_of_lt hi]
  next h1 =>
    have e : p.outIdx + (p.inIdx - p.outIdx) = p.inIdx := by omega
    rw [e, Nat.mod_eq_of_lt hi]

theorem mod_shift_inj (L o a b : Nat) (ho : o < L) (ha : a < L) (hb : b < L)
    (h : (o + a) % L = (o + b) % L) : a = b := by
  rw [wrap_mod L (o + a) (by omega), wrap_mod L (o + b) (by omega)] at h
  split_ifs at h <;> omega

theorem contents_length (p : Pipebuf) : (contents p).length = usedB p := by
  simp [contents]

/-! ### Write-side lemmas -/

theorem writeByte_len (p : Pipebuf) (b : Nat) : (writeByte p b).len = p.len := rfl

theorem writeByte_outIdx (p : Pipebuf) (b : Nat) : (writeByte p b).outIdx = p.outIdx := rfl

theorem writeByte_wf (p : Pipebuf) (b : Nat) (h : Pipewf p) : Pipewf (writeByte p b) := by
  obtain ⟨hb, hi, ho⟩ := h
  refine ⟨?_, ?_, ?_⟩
  · simp [writeByte, hb]
  · simp only [writeByte]
    split <;> omega
  · exact ho

theorem writeByte_usedB (p : Pipebuf) (b : Nat) (h : Pipewf p)
    (hroom : usedB p + 1 < p.len) : usedB (writeByte p b) = usedB p + 1 := by
  obtain ⟨hb, hi, ho⟩ := h
  unfold usedB writeByte at *
  simp only at *
  split_ifs at * <;> omega

theorem writeByte_contents (p : Pipebuf) (b : Nat) (h : Pipewf p)
    (hroom : usedB p + 1 < p.len) :
    contents (writeByte p b) = contents p ++ [b] := by
  have hwf' := writeByte_wf p b h
  have hused := writeByte_usedB p b h hroom
  obtain ⟨hb, hi, ho⟩ := h
  have hL : 0 < p.len := by omega
  have hin : p.inIdx = (p.outIdx + usedB p) % p.len := inIdx_eq p ⟨hb, hi, ho⟩
  unfold contents
  rw [hused, writeByte_outIdx, writeByte_len, List.range_succ, List.map_append]
  congr 1
  · apply List.map_congr_left
    intro i hi2
    have hilt : i < usedB p := List.mem_range.mp hi2
    have hus := usedB_lt_len p ⟨hb, hi, ho⟩
    have hposlt : (p.outIdx + i) % p.len < p.len := Nat.mod_lt _ hL
    have hne : (p.outIdx + i) % p.len ≠ p.inIdx := by
      intro hcontra
      rw [hin] at hcontra
      have := mod_shift_inj p.len p.outIdx i (usedB p) ho (by omega) hus hcontra
      omega
    show (writeByte p b).buf.getD ((p.outIdx + i) % p.len) 0 = p.buf.getD ((p.outIdx + i) % p.len) 0
    have hlen1 : (p.outIdx + i) % p.len < (writeByte p b).buf.length := by
      simp [writeByte, hb]; omega
    have hlen2 : (p.outIdx + i) % p.len < p.buf.length := by omega
    rw [List.getD_eq_getElem _ _ hlen1, List.getD_eq_getElem _ _ hlen2]
    exact List.getElem_set_ne (by simpa using fun hh => hne hh.symm) _
  · simp only [List.map_cons, List.map_nil]
    congr 1
    show (writeByte p b).buf.getD ((p.outIdx + usedB p) % p.len) 0 = b
    rw [← hin]
    have hlen1 : p.inIdx < (writeByte p b).buf.length := by
      simp [writeByte, hb]; omega
    rw [List.getD_eq_getElem _ _ hlen1]
    simp only [writeByte]
    exact List.getElem_set_self hlen1

theorem writeBytes_spec (bs : List Nat) (p : Pipebuf) (h : Pipewf p)
    (hroom : usedB p + bs.length < p.len) :
    Pipewf (writeBytes p bs) ∧ usedB (writeBytes p bs) = usedB p + bs.length ∧
    (writeBytes p bs).outIdx = p.outIdx ∧ (writeBytes p bs).len = p.len ∧
    contents (writeBytes p bs) = contents p ++ bs := by
  induction bs generalizing p with
  | nil => simpa [writeBytes] using h
  | cons b bs ih =>
    simp only [List.length_cons] at hroom
    have h1 : usedB p + 1 < p.len := by omega
    have hwf' := writeByte_wf p b h
    have hused := writeByte_usedB p b h h1
    have hcont := writeByte_contents p b h h1
    have hroom' : usedB (writeByte p b) + bs.length < (writeByte p b).len := by
      rw [hused, writeByte_len]; omega
    obtain ⟨w1, w2, w3, w4, w5⟩ := ih (writeByte p b) hwf' hroom'
    have hfold : writeBytes p (b :: bs) = writeBytes (writeByte p b) bs := rfl
    refine ⟨hfold ▸ w1, ?_, ?_, ?_, ?_⟩
    · rw [hfold, w2, hused, List.length_cons]; omega
    · rw [hfold, w3, writeByte_outIdx]
    · rw [hfold, w4, writeByte_len]
    · rw [hfold, w5, hcont, List.append_assoc]
      rfl

/-! ### Read-side lemmas -/

theorem readByte_len (p : Pipebuf) : (readByte p).2.len = p.len := rfl

theorem readByte_wf (p : Pipebuf) (h : Pipewf p) : Pipewf (readByte p).2 := by
  obtain ⟨hb, hi, ho⟩ := h
  refine ⟨hb, hi, ?_⟩
  simp only [readByte]
  split <;> omega

theorem readByte_usedB (p : Pipebuf) (h : Pipewf p) (hne : 1 ≤ usedB p) :
    usedB (readByte p).2 = usedB p - 1 := by
  obtain ⟨hb, hi, ho⟩ := h
  unfold usedB readByte at *
  simp only at *
  split_ifs at * <;> omega

theorem readByte_contents (p : Pipebuf) (h : Pipewf p) (hne : 1 ≤ usedB p) :
    contents p = (readByte p).1 :: contents (readByte p).2 := by
  have hused := readByte_usedB p h hne
  obtain ⟨hb, hi, ho⟩ := h
  have hL : 0 < p.len := by omega
  unfold contents
  rw [hused, readByte_len]
  obtain ⟨k, hk⟩ : ∃ k, usedB p = k + 1 := ⟨usedB p - 1, by omega⟩
  rw [hk, List.range_succ_eq_map]
  simp only [List.map_cons, Nat.add_sub_cancel, List.map_map]
  congr 1
  · show p.buf.getD ((p.outIdx + 0) % p.len) 0 = (readByte p).1
    simp only [readByte, Nat.add_zero, Nat.mod_eq_of_lt ho]
  · apply List.map_congr_left
    intro i _
    show p.buf.getD ((p.outIdx + Nat.succ i) % p.len) 0 =
      (readByte p).2.buf.getD (((readByte p).2.outIdx + i) % p.len) 0
    have hout' : (readByte p).2.outIdx = (p.outIdx + 1) % p.len := by
      simp only [readByte]
      rw [wrap_mod p.len (p.outIdx + 1) (by omega)]
      split <;> split <;> omega
    have hbuf' : (readByte p).2.buf = p.buf := rfl
    rw [hout', hbuf', Nat.mod_add_mod]
    congr 2
    omega

theorem readBytes_spec (k : Nat) (p : Pipebuf) (h : Pipewf p) (hk : k ≤ usedB p) :
    (readBytes p k).1 = (contents p).take k ∧
    contents (readBytes p k).2 = (contents p).drop k ∧
    usedB (readBytes p k).2 = usedB p - k ∧
    Pipewf (readBytes p k).2 ∧ (readBytes p k).2.len = p.len := by
  induction k generalizing p with
  | zero => simp [readBytes, h]
  | succ k ih =>
    have hne : 1 ≤ usedB p := by omega
    have hcons := readByte_contents p h hne
    have hwf' := readByte_wf p h
    have hused := readByte_usedB p h hne
    have hk' : k ≤ usedB (readByte p).2 := by omega
    obtain ⟨r1, r2, r3, r4, r5⟩ := ih (readByte p).2 hwf' hk'
    have hfold : readBytes p (k + 1) =
        ((readByte p).1 :: (readBytes (readByte p).2 k).1, (readBytes (readByte p).2 k).2) := rfl
    refine ⟨?_, ?_, ?_, ?_, ?_⟩
    · rw [hfold, hcons]
      simp only [List.take_succ_cons]
      rw [r1]
    · rw [hfold]
      simp only
      rw [r2, hcons, List.drop_succ_cons]
    · rw [hfold]
      simp only
      rw [r3, hused]
      omega
    · rw [hfold]; exact r4
    · rw [hfold]
      simp only
      rw [r5, readByte_len]

/-! ### Branch lemmas for pipewrite and piperead -/

theorem pipewrite_args_fail (src : Option (List Nat)) (sz num : Nat)
    (pipe : Option Pipebuf) (block : Bool)
    (h : src = none ∨ sz = 0 ∨ num = 0 ∨ pipe = none) :
    pipewrite src sz num pipe block = some (-1, pipe) := by
  unfold pipewrite
  rw [if_pos h]

theorem piperead_args_fail (dst : Option Unit) (sz num : Nat)
    (pipe : Option Pipebuf) (block : Bool)
    (h : dst = none ∨ sz = 0 ∨ num = 0 ∨ pipe = none) :
    piperead dst sz num pipe block = some (-1, [], pipe) := by
  unfold piperead
  rw [if_pos h]

theorem pipewrite_full_nonblock (data : List Nat) (sz num : Nat) (p : Pipebuf)
    (hsz : sz ≠ 0) (hnum : num ≠ 0) (hav : availB p < sz) :
    pipewrite (some data) sz num (some p) false = some (-1, some p) := by
  unfold pipewrite
  rw [if_neg (by simp [hsz, hnum])]
  simp only [Option.getD_some]
  rw [if_pos hav]
  rfl

theorem pipewrite_ok (data : List Nat) (sz num : Nat) (p : Pipebuf) (block : Bool)
    (hsz : sz ≠ 0) (hnum : num ≠ 0) (hav : sz ≤ availB p) :
    pipewrite (some data) sz num (some p) block =
      some (((min (availB p / sz) num : Nat) : Int),
        some (writeBytes p (data.take (min (availB p / sz) num * sz)))) := by
  unfold pipewrite
  rw [if_neg (by simp [hsz, hnum])]
  simp only [Option.getD_some]
  rw [if_neg (Nat.not_lt.mpr hav)]

theorem piperead_empty_nonblock (sz num : Nat) (p : Pipebuf)
    (hsz : sz ≠ 0) (hnum : num ≠ 0) (hus : usedB p < sz) :
    piperead (some ()) sz num (some p) false = some (0, [], some p) := by
  unfold piperead
  rw [if_neg (by simp [hsz, hnum])]
  simp only [Option.getD_some]
  rw [if_pos hus]
  rfl

theorem pipewrite_full_block (data : List Nat) (sz num : Nat) (p : Pipebuf)
    (hsz : sz ≠ 0) (hnum : num ≠ 0) (hav : availB p < sz) :
    pipewrite (some data) sz num (some p) true = none := by
  unfold pipewrite
  rw [if_neg (by simp [hsz, hnum])]
  simp only [Option.getD_some]
  rw [if_pos hav]
  rfl

theorem piperead_empty_block (sz num : Nat) (p : Pipebuf)
    (hsz : sz ≠ 0) (hnum : num ≠ 0) (hus : usedB p < sz) :
    piperead (some ()) sz num (some p) true = none := by
  unfold piperead
  rw [if_neg (by simp [hsz, hnum])]
  simp only [Option.getD_some]
  rw [if_pos hus]
  rfl

theorem piperead_ok (sz num : Nat) (p : Pipebuf) (block : Bool)
    (hsz : sz ≠ 0) (hnum : num ≠ 0) (hus : sz ≤ usedB p) :
    piperead (some ()) sz num (some p) block =
      some (((min (usedB p / sz) num : Nat) : Int),
        (readBytes p (min (usedB p / sz) num * sz)).1,
        some (readBytes p (min (usedB p / sz) num * sz)).2) := by
  unfold piperead
  rw [if_neg (by simp [hsz, hnum])]
  simp only [Option.getD_some]
  rw [if_neg (Nat.not_lt.mpr hus)]

/-! ### One-operation and trace specifications -/

theorem runOp_spec (sz : Nat) (p : Pipebuf) (op : PipeOp) (h : Pipewf p)
    (hop : opWriteLenOk sz op = true) (p' : Pipebuf) (w r : List Nat)
    (hrun : runOp sz p op = some (p', w, r)) :
    Pipewf p' ∧ contents p ++ w = r ++ contents p' ∧ sz ∣ w.length ∧ sz ∣ r.length := by
  cases op with
  | wr data num block =>
    have hoplen : num * sz ≤ data.length := by
      simpa [opWriteLenOk] using hop
    by_cases h0 : sz = 0 ∨ num = 0
    · have hw : pipewrite (some data) sz num (some p) block = some (-1, some p) :=
        pipewrite_args_fail _ _ _ _ _ (by tauto)
      simp only [runOp, hw] at hrun
      obtain ⟨hp', hw', hr'⟩ : p = p' ∧ data.take ((-1 : Int).toNat * sz) = w ∧ [] = r := by
        simpa using hrun
      subst hp'; subst hw'; subst hr'
      exact ⟨h, by simp, by simp, by simp⟩
    · push_neg at h0
      obtain ⟨hsz, hnum⟩ := h0
      by_cases hav : availB p < sz
      · cases block with
        | true =>
          rw [runOp] at hrun
          rw [pipewrite_full_block data sz num p hsz hnum hav] at hrun
          simp at hrun
        | false =>
          have hw : pipewrite (some data) sz num (some p) false = some (-1, some p) :=
            pipewrite_full_nonblock data sz num p hsz hnum hav
          simp only [runOp, hw] at hrun
          obtain ⟨hp', hw', hr'⟩ : p = p' ∧ data.take ((-1 : Int).toNat * sz) = w ∧ [] = r := by
            simpa using hrun
          subst hp'; subst hw'; subst hr'
          exact ⟨h, by simp, by simp, by simp⟩
      · have hw : pipewrite (some data) sz num (some p) block =
            some (((min (availB p / sz) num : Nat) : Int),
              some (writeBytes p (data.take (min (availB p / sz) num * sz)))) :=
          pipewrite_ok data sz num p block hsz hnum (Nat.le_of_not_lt hav)
        simp only [runOp, hw] at hrun
        set ft := min (availB p / sz) num with hft
        obtain ⟨hp', hw', hr'⟩ :
            writeBytes p (data.take (ft * sz)) = p' ∧
            data.take ((ft : Int).toNat * sz) = w ∧ [] = r := by
          simpa using hrun
        have htn : ((ft : Int)).toNat = ft := Int.toNat_natCast ft
        have hfts : ft * sz ≤ availB p := by
          calc ft * sz ≤ (availB p / sz) * sz :=
                Nat.mul_le_mul_right _ (Nat.min_le_left _ _)
            _ ≤ availB p := Nat.div_mul_le_self _ _
        have hus := usedB_lt_len p h
        have hL : 0 < p.len := by omega
        have hroom : usedB p + (data.take (ft * sz)).length < p.len := by
          have : (data.take (ft * sz)).length ≤ ft * sz := by
            simp [List.length_take]
          have hub : availB p = p.len - usedB p - 1 := rfl
          omega
        obtain ⟨s1, _, _, _, s5⟩ := writeBytes_spec (data.take (ft * sz)) p h hroom
        have hlenw : (data.take (ft * sz)).length = ft * sz := by
          rw [List.length_take]
          have : ft * sz ≤ num * sz := Nat.mul_le_mul_right _ (Nat.min_le_right _ _)
          omega
        subst hp'
        rw [htn] at hw'
        subst hw'
        subst hr'
        refine ⟨s1, by rw [s5]; simp, ?_, by simp⟩
        rw [hlenw]
        exact dvd_mul_left sz ft
  | rd num block =>
    by_cases h0 : sz = 0 ∨ num = 0
    · have hw : piperead (some ()) sz num (some p) block = some (-1, [], some p) :=
        piperead_args_fail _ _ _ _ _ (by tauto)
      simp only [runOp, hw] at hrun
      obtain ⟨hp', hw', hr'⟩ : p = p' ∧ [] = w ∧ [] = r := by
        simpa using hrun
      subst hp'; subst hw'; subst hr'
      exact ⟨h, by simp, by simp, by simp⟩
    · push_neg at h0
      obtain ⟨hsz, hnum⟩ := h0
      by_cases hus : usedB p < sz
      · cases block with
        | true =>
          rw [runOp] at hrun
          rw [piperead_empty_block sz num p hsz hnum hus] at hrun
          simp at hrun
        | false =>
          have hw : piperead (some ()) sz num (some p) false = some (0, [], some p) :=
            piperead_empty_nonblock sz num p hsz hnum hus
          simp only [runOp, hw] at hrun
          obtain ⟨hp', hw', hr'⟩ : p = p' ∧ [] = w ∧ [] = r := by
            simpa using hrun
          subst hp'; subst hw'; subst hr'
          exact ⟨h, by simp, by simp, by simp⟩
      · have hw : piperead (some ()) sz num (some p) block =
            some (((min (usedB p / sz) num : Nat) : Int),
              (readBytes p (min (usedB p / sz) num * sz)).1,
              some (readBytes p (min (usedB p / sz) num * sz)).2) :=
          piperead_ok sz num p block hsz hnum (Nat.le_of_not_lt hus)
        simp only [runOp, hw] at hrun
        set nm := min (usedB p / sz) num with hnm
        obtain ⟨hp', hw', hr'⟩ :
            (readBytes p (nm * sz)).2 = p' ∧ [] = w ∧ (readBytes p (nm * sz)).1 = r := by
          simpa using hrun
        have hnms : nm * sz ≤ usedB p := by
          calc nm * sz ≤ (usedB p / sz) * sz :=
                Nat.mul_le_mul_right _ (Nat.min_le_left _ _)
            _ ≤ usedB p := Nat.div_mul_le_self _ _
        obtain ⟨r1, r2, _, r4, _⟩ := readBytes_spec (nm * sz) p h hnms
        subst hp'; subst hw'; subst hr'
        refine ⟨r4, ?_, by simp, ?_⟩
        · rw [r1, r2]
          simp [List.take_append_drop]
        · rw [r1, List.length_take, contents_length]
          have : min (nm * sz) (usedB p) = nm * sz := by omega
          rw [this]
          exact dvd_mul_left sz nm

theorem runOps_spec (sz : Nat) (ops : List PipeOp) :
    ∀ (p : Pipebuf), Pipewf p → (∀ op ∈ ops, opWriteLenOk sz op = true) →
    ∀ (pN : Pipebuf) (ws rs : List (List Nat)),
      runOps sz p ops = some (pN, ws, rs) →
      Pipewf pN ∧ contents p ++ ws.flatten = rs.flatten ++ contents pN ∧
      (∀ w ∈ ws, sz ∣ w.length) ∧ (∀ r ∈ rs, sz ∣ r.length) := by
  induction ops with
  | nil =>
    intro p hwf _ pN ws rs hrun
    obtain ⟨h1, h2, h3⟩ : p = pN ∧ [] = ws ∧ [] = rs := by
      simpa [runOps] using hrun
    subst h1; subst h2; subst h3
    exact ⟨hwf, by simp, by simp, by simp⟩
  | cons op ops ih =>
    intro p hwf hops pN ws rs hrun
    cases h1 : runOp sz p op with
    | none => simp [runOps, h1] at hrun
    | some res =>
      obtain ⟨p', w, r⟩ := res
      cases h2 : runOps sz p' ops with
      | none => simp [runOps, h1, h2] at hrun
      | some res2 =>
        obtain ⟨pN', ws', rs'⟩ := res2
        have hstep : runOps sz p (op :: ops) = some (pN', w :: ws', r :: rs') := by
          simp [runOps, h1, h2]
        rw [hstep] at hrun
        obtain ⟨e1, e2, e3⟩ : pN' = pN ∧ w :: ws' = ws ∧ r :: rs' = rs := by
          simpa using hrun
        subst e1; subst e2; subst e3
        obtain ⟨o1, o2, o3, o4⟩ :=
          runOp_spec sz p op hwf (hops op (List.mem_cons_self op ops)) p' w r h1
        obtain ⟨i1, i2, i3, i4⟩ :=
          ih p' o1 (fun x hx => hops x (List.mem_cons_of_mem op hx)) pN' ws' rs' h2
        refine ⟨i1, ?_, ?_, ?_⟩
        · calc contents p ++ (w :: ws').flatten
              = (contents p ++ w) ++ ws'.flatten := by simp [List.append_assoc]
            _ = (r ++ contents p') ++ ws'.flatten := by rw [o2]
            _ = r ++ (contents p' ++ ws'.flatten) := by simp [List.append_assoc]
            _ = r ++ (rs'.flatten ++ contents pN') := by rw [i2]
            _ = (r :: rs').flatten ++ contents pN' := by simp [List.append_assoc]
        · intro x hx
          rcases List.mem_cons.mp hx with hx | hx
          · subst hx; exact o3
          · exact i3 x hx
        · intro x hx
          rcases List.mem_cons.mp hx with hx | hx
          · subst hx; exact o4
          · exact i4 x hx

/-! ### Claim theorems for the jitter pipe -/

/-- C2 counterexample: a non-blocking `pipewrite` whose free space (3 bytes in
a fresh 4-byte pipe) is smaller than one 4-byte item returns -1, not the 0
items the claim states. -/
theorem pipewrite_insufficient_counterexample :
    pipewrite (some [9, 9, 9, 9]) 4 1 (some (newpipe 4)) false =
      some (-1, some (newpipe 4)) ∧ (-1 : Int) ≠ 0 := by
  constructor
  · rfl
  · decide

/-- C2 (amended): a non-blocking `pipewrite` with free space smaller than one
item returns -1 (not 0) and leaves the pipe unchanged; with space for at
least one item it returns the number of items written, between 1 and
`num`, and appends exactly those bytes to the pipe contents. -/
theorem pipewrite_nonblocking_spec (p : Pipebuf) (data : List Nat) (sz num : Nat)
    (hwf : Pipewf p) (hsz : sz ≠ 0) (hnum : num ≠ 0) :
    (availB p < sz →
      pipewrite (some data) sz num (some p) false = some (-1, some p)) ∧
    (sz ≤ availB p →
      pipewrite (some data) sz num (some p) false =
        some (((min (availB p / sz) num : Nat) : Int),
          some (writeBytes p (data.take (min (availB p / sz) num * sz)))) ∧
      1 ≤ min (availB p / sz) num ∧ min (availB p / sz) num ≤ num ∧
      contents (writeBytes p (data.take (min (availB p / sz) num * sz))) =
        contents p ++ data.take (min (availB p / sz) num * sz)) := by
  constructor
  · intro hav
    exact pipewrite_full_nonblock data sz num p hsz hnum hav
  · intro hav
    set ft := min (availB p / sz) num with hft
    have hfts : ft * sz ≤ availB p := by
      calc ft * sz ≤ (availB p / sz) * sz :=
            Nat.mul_le_mul_right _ (Nat.min_le_left _ _)
        _ ≤ availB p := Nat.div_mul_le_self _ _
    have hus := usedB_lt_len p hwf
    have hroom : usedB p + (data.take (ft * sz)).length < p.len := by
      have : (data.take (ft * sz)).length ≤ ft * sz := by
        simp [List.length_take]
      have hub : availB p = p.len - usedB p - 1 := rfl
      omega
    obtain ⟨_, _, _, _, s5⟩ := writeBytes_spec (data.take (ft * sz)) p hwf hroom
    refine ⟨pipewrite_ok data sz num p false hsz hnum hav, ?_, Nat.min_le_right _ _, s5⟩
    have h1 : 1 ≤ availB p / sz := (Nat.one_le_div_iff (Nat.pos_of_ne_zero hsz)).mpr hav
    omega

/-- C2 witness: a concrete non-blocking write into a fresh 8-byte pipe. -/
theorem pipewrite_nonblocking_spec_witness :
    (2 : Nat) ≤ availB (newpipe 8) ∧
    (pipewrite (some [1, 2, 3, 4]) 2 1 (some (newpipe 8)) false =
      some (((min (availB (newpipe 8) / 2) 1 : Nat) : Int),
        some (writeBytes (newpipe 8) ([1, 2, 3, 4].take (min (availB (newpipe 8) / 2) 1 * 2)))) ∧
      1 ≤ min (availB (newpipe 8) / 2) 1 ∧ min (availB (newpipe 8) / 2) 1 ≤ 1 ∧
      contents (writeBytes (newpipe 8) ([1, 2, 3, 4].take (min (availB (newpipe 8) / 2) 1 * 2))) =
        contents (newpipe 8) ++ [1, 2, 3, 4].take (min (availB (newpipe 8) / 2) 1 * 2)) :=
  ⟨by decide,
   (pipewrite_nonblocking_spec (newpipe 8) [1, 2, 3, 4] 2 1
      (by unfold Pipewf; refine ⟨by decide, by decide, by decide⟩)
      (by decide) (by decide)).2 (by decide)⟩

/-- C3: over any sequence of jitter-pipe operations with a common item size
on one pipe that completes without blocking, the concatenation of the bytes
written equals the concatenation of the bytes read followed by the bytes
remaining in the pipe (conservation and FIFO order), and every individual
transfer moves a whole multiple of the item size. -/
theorem jitterpipe_conservation_fifo (sz n : Nat) (ops : List PipeOp) (hn : 0 < n)
    (hops : ∀ op ∈ ops, opWriteLenOk sz op = true)
    (pN : Pipebuf) (ws rs : List (List Nat))
    (hrun : runOps sz (newpipe n) ops = some (pN, ws, rs)) :
    ws.flatten = rs.flatten ++ contents pN ∧
    ws.flatten.length = rs.flatten.length + (contents pN).length ∧
    (∀ w ∈ ws, sz ∣ w.length) ∧ (∀ r ∈ rs, sz ∣ r.length) := by
  have hwf : Pipewf (newpipe n) := by
    refine ⟨by simp [newpipe], ?_, ?_⟩ <;> simpa [newpipe] using hn
  have hc0 : contents (newpipe n) = [] := by
    simp [contents, usedB, newpipe]
  obtain ⟨_, heq, hw, hr⟩ := runOps_spec sz ops (newpipe n) hwf hops pN ws rs hrun
  rw [hc0, List.nil_append] at heq
  refine ⟨heq, ?_, hw, hr⟩
  rw [heq]
  simp

/-- C3 witness: a concrete write of two 2-byte items followed by a read of
one item on a fresh 8-byte pipe. -/
theorem jitterpipe_conservation_fifo_witness :
    (0 : Nat) < 8 ∧
    (∀ op ∈ [PipeOp.wr [1, 2, 3, 4] 2 false, PipeOp.rd 1 false], opWriteLenOk 2 op = true) ∧
    (([[1, 2, 3, 4], []] : List (List Nat)).flatten =
        ([[], [1, 2]] : List (List Nat)).flatten ++ contents ⟨8, [1, 2, 3, 4, 0, 0, 0, 0], 4, 2⟩ ∧
      ([[1, 2, 3, 4], []] : List (List Nat)).flatten.length =
        ([[], [1, 2]] : List (List Nat)).flatten.length +
          (contents ⟨8, [1, 2, 3, 4, 0, 0, 0, 0], 4, 2⟩).length ∧
      (∀ w ∈ ([[1, 2, 3, 4], []] : List (List Nat)), 2 ∣ w.length) ∧
      (∀ r ∈ ([[], [1, 2]] : List (List Nat)), 2 ∣ r.length)) :=
  ⟨by decide, by decide,
   jitterpipe_conservation_fifo 2 8 [PipeOp.wr [1, 2, 3, 4] 2 false, PipeOp.rd 1 false]
     (by decide) (by decide) ⟨8, [1, 2, 3, 4, 0, 0, 0, 0], 4, 2⟩
     [[1, 2, 3, 4], []] [[], [1, 2]] (by rfl)⟩

/-- C9: a `pipewrite` or `piperead` whose buffer pointer is `NULL`, whose
item size or count is zero, or whose pipe pointer is `NULL`, returns -1
immediately with the pipe unchanged. -/
theorem pipe_ops_arg_check (src : Option (List Nat)) (dst : Option Unit)
    (sz num : Nat) (pipe : Option Pipebuf) (block : Bool) :
    (src = none ∨ sz = 0 ∨ num = 0 ∨ pipe = none →
      pipewrite src sz num pipe block = some (-1, pipe)) ∧
    (dst = none ∨ sz = 0 ∨ num = 0 ∨ pipe = none →
      piperead dst sz num pipe block = some (-1, [], pipe)) :=
  ⟨fun h => pipewrite_args_fail src sz num pipe block h,
   fun h => piperead_args_fail dst sz num pipe block h⟩

/-- C9 witness: `NULL` buffer pointers with an otherwise healthy pipe. -/
theorem pipe_ops_arg_check_witness :
    pipewrite none 2 1 (some (newpipe 8)) true = some (-1, some (newpipe 8)) ∧
    piperead none 2 1 (some (newpipe 8)) true = some (-1, [], some (newpipe 8)) :=
  ⟨(pipe_ops_arg_check none none 2 1 (some (newpipe 8)) true).1 (Or.inl rfl),
   (pipe_ops_arg_check none none 2 1 (some (newpipe 8)) true).2 (Or.inl rfl)⟩

/-! ### Claim theorems for dispatch, typing, setup and the client -/

/-- C1 (code evaluation at the failing input): when the data id and format
are valid but the device's `setupStream` returns `NULL`, `handleSetupStream`
writes the two reply integers -4 and `dataId` (the -4 branch lacks a
`return` and falls through to the success tail), and also registers the
data id, instead of the single error reply the claim requires. -/
theorem setupStream_device_failure_two_replies :
    handleSetupStream [(5, ⟨none, 0, "", [], none⟩)] [] (some 1) 5 0 "CS16" ['0'] none =
      ([-4, 5], [(5, ⟨some 1, 0, "CS16", [0], none⟩)], [5]) ∧
    ([-4, 5] : List Int).length ≠ 1 := by
  constructor
  · rfl
  · decide

/-- C5 (code evaluation): no line of the client's `getHardwareKey` request is
the synchronisation sentinel — the request is the bare tag line — and the
server's `handleRPC`, reading that first line where it expects the sentinel,
drops the RPC connection whatever tag follows. -/
theorem client_request_lacks_sentinel_server_drops :
    (∀ l ∈ getHardwareKeyRequest, l ≠ TCPREMOTE_RPC_SEP) ∧
    (∀ call : Int, handleRPCStep (getHardwareKeyRequest.headD "") call = .drop) := by
  constructor
  · decide
  · intro call
    unfold handleRPCStep
    rw [if_pos (by decide)]

/-- C6: a request whose non-negative tag is none of the handled case labels
(and not the drop tag) takes the `default` branch: the server writes the
single integer -1000 and the connection record stays in the registry, so
later requests are still dispatched. -/
theorem unknown_tag_replies_neg1000_keeps_connection (call : Int) (h0 : 0 ≤ call)
    (hmem : call ∉ handledTags) (hdrop : call ≠ TCPREMOTE_DROP_RPC) :
    handleRPCStep TCPREMOTE_RPC_SEP call = .reply [-1000] ∧
    ∀ (reg : List Int) (fd : Int),
      rpcRegistryAfter reg fd (handleRPCStep TCPREMOTE_RPC_SEP call) = reg := by
  have hstep : handleRPCStep TCPREMOTE_RPC_SEP call = .reply [-1000] := by
    unfold handleRPCStep
    rw [if_neg (by simp), if_neg (by omega), if_neg hdrop, if_neg hmem]
  exact ⟨hstep, fun reg fd => by rw [hstep]; rfl⟩

/-- C6 witness: tag 1000 is implemented by no handler. -/
theorem unknown_tag_replies_neg1000_witness :
    handleRPCStep TCPREMOTE_RPC_SEP 1000 = .reply [-1000] ∧
    ∀ (reg : List Int) (fd : Int),
      rpcRegistryAfter reg fd (handleRPCStep TCPREMOTE_RPC_SEP 1000) = reg :=
  unknown_tag_replies_neg1000_keeps_connection 1000 (by decide) (by decide) (by decide)

/-- C8: the first byte of a fresh connection deterministically selects the
outcome — '0' (48) an RPC connection, '1'/'2' (49/50) a data connection with
that direction, '3' (51) a log connection — and any other byte closes the
socket without inserting a record into the registry. -/
theorem connection_typing_first_byte (b : Nat) :
    (handleListenType b = .rpc ↔ b = 48) ∧
    (handleListenType b = .data TCPREMOTE_DATA_SEND ↔ b = 49) ∧
    (handleListenType b = .data TCPREMOTE_DATA_RECV ↔ b = 50) ∧
    (handleListenType b = .log ↔ b = 51) ∧
    (b ≠ 48 ∧ b ≠ 49 ∧ b ≠ 50 ∧ b ≠ 51 → handleListenType b = .closed) ∧
    (handleListenType b = .closed →
      ∀ (reg : List Int) (sock : Int) (mk lg : Bool),
        handleListenRegistry reg sock b mk lg = reg) := by
  have hreg : handleListenType b = .closed →
      ∀ (reg : List Int) (sock : Int) (mk lg : Bool),
        handleListenRegistry reg sock b mk lg = reg := by
    intro h reg sock mk lg
    unfold handleListenRegistry
    rw [h]
  unfold handleListenType TCPREMOTE_RPC_LOAD TCPREMOTE_LOG_STREAM
    TCPREMOTE_DATA_SEND TCPREMOTE_DATA_RECV
  dsimp only
  refine ⟨?_, ?_, ?_, ?_, ?_, hreg⟩ <;>
    split_ifs with h1 h2 h3 <;>
    simp_all <;> omega

/-- C8 witness: byte 65 ('A') is unknown and leaves the registry alone. -/
theorem connection_typing_first_byte_witness :
    handleListenType 65 = .closed ∧
    handleListenRegistry [7] 9 65 true true = [7] :=
  ⟨((connection_typing_first_byte 65).2.2.2.2.1 (by decide)),
   ((connection_typing_first_byte 65).2.2.2.2.2
      ((connection_typing_first_byte 65).2.2.2.2.1 (by decide)) [7] 9 true true)⟩

/-- C10: on the client, activating an already running stream and
deactivating a stream that is not running both return 0 immediately, issue
no RPC integers, and leave the stream record unchanged. -/
theorem activate_deactivate_idempotent (st : ClientStream) (reply : Int) :
    (st.running = true → activateStream st reply = (0, st, [])) ∧
    (st.running = false → deactivateStream st reply = (0, st, [])) := by
  constructor
  · intro h
    unfold activateStream
    rw [if_pos h]
  · intro h
    unfold deactivateStream
    rw [if_pos (by rw [h]; rfl)]

/-- C10 witness: a concrete running stream and a concrete stopped stream. -/
theorem activate_deactivate_idempotent_witness :
    activateStream ⟨1, 5, 1, 2, true⟩ 7 = (0, ⟨1, 5, 1, 2, true⟩, []) ∧
    deactivateStream ⟨1, 5, 1, 2, false⟩ 7 = (0, ⟨1, 5, 1, 2, false⟩, []) :=
  ⟨(activate_deactivate_idempotent ⟨1, 5, 1, 2, true⟩ 7).1 rfl,
   (activate_deactivate_idempotent ⟨1, 5, 1, 2, false⟩ 7).2 rfl⟩

/-! ### Codec lemmas -/

theorem takeWhile_append_of_all (p : Char → Bool) (s l : List Char)
    (h : ∀ c ∈ s, p c = true) :
    (s ++ l).takeWhile p = s ++ l.takeWhile p := by
  induction s with
  | nil => simp
  | cons c cs ih =>
    simp only [List.cons_append, List.takeWhile_cons, h c (by simp), if_true]
    rw [ih fun x hx => h x (by simp [hx])]

theorem readString_line (s rest : List Char) (h : '\n' ∉ s)
    (hcap : s.length + 1 ≤ 255) :
    readString (writeString s ++ rest) = (s, rest) := by
  have hne : writeString s ++ rest ≠ [] := by simp [writeString]
  have heq : writeString s ++ rest = s ++ ('\n' :: rest) := by simp [writeString]
  have hall : ∀ c ∈ s, (decide (c ≠ '\n')) = true := by
    intro c hc
    simp only [decide_eq_true_eq]
    intro hcc
    exact h (hcc ▸ hc)
  have ht : (s ++ '\n' :: rest).takeWhile (· ≠ '\n') = s := by
    rw [takeWhile_append_of_all _ s ('\n' :: rest) hall, List.takeWhile_cons]
    simp
  have hlt : s.length < (s ++ '\n' :: rest).length := by
    simp [List.length_append]
  unfold readString
  rw [if_neg hne, heq]
  dsimp only
  rw [ht, if_pos ⟨hcap, hlt⟩]
  rw [List.take_append 1]
  have h1 : ('\n' :: rest).take 1 = ['\n'] := rfl
  rw [h1]
  have hlen2 : (s ++ ['\n']).length = s.length + 1 := by simp
  rw [hlen2]
  have hdl : (s ++ ['\n']).dropLast = s := by simp
  have hdr : (s ++ '\n' :: rest).drop (s.length + 1) = rest := by
    rw [List.drop_append 1]
    rfl
  rw [hdl, hdr]

theorem charListLt_irrefl (a : List Char) : charListLt a a = false := by
  induction a with
  | nil => rfl
  | cons c cs ih => simp [charListLt, lt_irrefl, ih]

theorem charListLt_asymm (a b : List Char) (h : charListLt a b = true) :
    charListLt b a = false := by
  induction a generalizing b with
  | nil =>
    cases b with
    | nil => rfl
    | cons d ds => rfl
  | cons c cs ih =>
    cases b with
    | nil => simp [charListLt] at h
    | cons d ds =>
      simp only [charListLt] at h ⊢
      by_cases h1 : c < d
      · rw [if_neg (lt_asymm h1), if_pos h1]
      · by_cases h2 : d < c
        · rw [if_neg h1, if_pos h2] at h
          exact absurd h (by simp)
        · rw [if_neg h1, if_neg h2] at h
          rw [if_neg h2, if_neg h1]
          exact ih ds h

theorem kwInsert_append (acc : List (List Char × List Char)) (k v : List Char)
    (h : ∀ e ∈ acc, charListLt e.1 k = true) :
    kwInsert acc k v = acc ++ [(k, v)] := by
  induction acc with
  | nil => rfl
  | cons e rest ih =>
    obtain ⟨k', v'⟩ := e
    have hk' : charListLt k' k = true := h (k', v') (by simp)
    have hne : k ≠ k' := by
      intro hkk
      subst hkk
      rw [charListLt_irrefl] at hk'
      exact absurd hk' (by simp)
    have hnlt : charListLt k k' = false := charListLt_asymm k' k hk'
    simp only [kwInsert]
    rw [if_neg hne, if_neg (by simp [hnlt]), ih fun x hx => h x (by simp [hx])]
    simp

theorem writeKwargs_cons (k v : List Char) (m : List (List Char × List Char)) :
    writeKwargs ((k, v) :: m) = writeString (k ++ '=' :: v) ++ writeKwargs m := by
  simp [writeKwargs, List.append_assoc]

theorem findIdx_key (k v : List Char) (hk : '=' ∉ k) :
    (k ++ '=' :: v).findIdx (· = '=') = k.length := by
  induction k with
  | nil => simp [List.findIdx_cons]
  | cons c cs ih =>
    have hc : ¬ c = '=' := fun hcc => hk (by simp [hcc])
    simp only [List.cons_append, List.findIdx_cons, List.length_cons]
    rw [ih fun hcc => hk (by simp [hcc])]
    simp [hc]

theorem readKwargsAux_step (stream : List Char) (args : List (List Char × List Char))
    (hne : stream ≠ []) :
    readKwargsAux stream args =
      (let r := readString stream
       if r.1.length < 2 then (args, r.2)
       else
         let p := r.1.findIdx (· = '=')
         let args' :=
           if p = r.1.length then kwInsert args r.1 r.1
           else if 0 < p then kwInsert args (r.1.take p) (r.1.drop (p + 1))
           else args
         readKwargsAux r.2 args') := by
  rw [readKwargsAux]
  rw [dif_neg hne]

theorem readKwargsAux_encode (m : List (List Char × List Char)) :
    m.Pairwise (fun a b => charListLt a.1 b.1 = true) →
    (∀ kv ∈ m, kv.1 ≠ [] ∧ '=' ∉ kv.1 ∧ '\n' ∉ kv.1 ∧ '=' ∉ kv.2 ∧ '\n' ∉ kv.2 ∧
      kv.1.length + kv.2.length ≤ 253) →
    ∀ acc : List (List Char × List Char),
      (∀ e ∈ acc, ∀ x ∈ m, charListLt e.1 x.1 = true) →
      readKwargsAux (writeKwargs m) acc = (acc ++ m, []) := by
  induction m with
  | nil =>
    intro _ _ acc _
    have h0 : writeKwargs [] = writeString ['='] ++ [] := by simp [writeKwargs]
    rw [h0, readKwargsAux_step _ _ (by simp [writeString]),
      readString_line ['='] [] (by decide) (by decide)]
    simp
  | cons kv m' ih =>
    obtain ⟨k, v⟩ := kv
    intro hsorted hvalid acc hacc
    obtain ⟨hknil, hkeq, hknl, _, hvnl, hcap253⟩ := hvalid (k, v) (by simp)
    have hkpos : 0 < k.length := List.length_pos.mpr hknil
    have hnl : '\n' ∉ k ++ '=' :: v := by
      intro hmem
      rcases List.mem_append.mp hmem with hmem | hmem
      · exact hknl hmem
      · rcases List.mem_cons.mp hmem with hmem | hmem
        · exact absurd hmem (by decide)
        · exact hvnl hmem
    rw [writeKwargs_cons, readKwargsAux_step _ _ (by simp [writeString]),
      readString_line (k ++ '=' :: v) (writeKwargs m') hnl
        (by
          have hcap2 : k.length + v.length ≤ 253 := hcap253
          simp only [List.length_append, List.length_cons]
          omega)]
    dsimp only
    rw [if_neg (by simp only [List.length_append, List.length_cons]; omega)]
    rw [findIdx_key k v hkeq]
    rw [if_neg (by simp only [List.length_append, List.length_cons]; omega)]
    rw [if_pos hkpos]
    rw [List.take_left k ('=' :: v)]
    have hdrop : (k ++ '=' :: v).drop (k.length + 1) = v := by
      rw [List.drop_append 1]
      simp
    rw [hdrop]
    rw [kwInsert_append acc k v fun e he => hacc e he (k, v) (by simp)]
    obtain ⟨hhead, htail⟩ := List.pairwise_cons.mp hsorted
    have hacc' : ∀ e ∈ acc ++ [(k, v)], ∀ x ∈ m', charListLt e.1 x.1 = true := by
      intro e he x hx
      rcases List.mem_append.mp he with he | he
      · exact hacc e he x (by simp [hx])
      · have he2 : e = (k, v) := by simpa using he
        subst he2
        exact hhead x hx
    rw [ih htail (fun x hx => hvalid x (by simp [hx])) (acc ++ [(k, v)]) hacc']
    simp

/-- C7 (amended): decoding the kwargs encoding returns exactly the original
map: for a map given as its key-sorted association list with non-empty keys,
no newline or '=' in keys, no newline or '=' in values, and key plus value
length at most 253 per pair — so each `key=value` line with its newline fits
the 256-byte `fgets` buffer — `readKwargs` recovers the list from
`writeKwargs` exactly and consumes the whole stream. -/
theorem readKwargs_writeKwargs_roundtrip (m : List (List Char × List Char))
    (hsorted : m.Pairwise fun a b => charListLt a.1 b.1 = true)
    (hvalid : ∀ kv ∈ m, kv.1 ≠ [] ∧ '=' ∉ kv.1 ∧ '\n' ∉ kv.1 ∧ '=' ∉ kv.2 ∧ '\n' ∉ kv.2 ∧
      kv.1.length + kv.2.length ≤ 253) :
    readKwargs (writeKwargs m) = (m, []) := by
  unfold readKwargs
  rw [readKwargsAux_encode m hsorted hvalid [] (by simp)]
  simp

/-- C7 witness: the two-pair map a=1, b=2. -/
theorem readKwargs_writeKwargs_roundtrip_witness :
    readKwargs (writeKwargs [(['a'], ['1']), (['b'], ['2'])]) =
      ([(['a'], ['1']), (['b'], ['2'])], []) :=
  readKwargs_writeKwargs_roundtrip [(['a'], ['1']), (['b'], ['2'])]
    (by decide) (by decide)

set_option maxRecDepth 8000 in
/-- C7 counterexample: the one-pair map with key `k` and a 253-character
value satisfies every hypothesis of the original claim (non-empty key, no
newline or '=' anywhere), but its `key=value` line is 255 characters plus
newline, one more than `fgets`'s 255-character chunk: `readString` returns
the first 255 characters with the last data byte stripped, the decoder
stores the 252-character remnant as the value and then hits the stray
newline as an empty line, terminating with the real terminator unconsumed —
so decoding does not return the original map. -/
theorem readKwargs_overlong_line_counterexample :
    readKwargs (writeKwargs [(['k'], List.replicate 253 'a')]) ≠
      ([(['k'], List.replicate 253 'a')], []) := by
  have hr1 : readString (writeKwargs [(['k'], List.replicate 253 'a')]) =
      (['k', '='] ++ List.replicate 252 'a', ['\n', '=', '\n']) := by decide
  have hfind : ((['k', '='] ++ List.replicate 252 'a').findIdx (· = '=')) = 1 := by
    decide
  have hins : kwInsert [] ((['k', '='] ++ List.replicate 252 'a').take 1)
      ((['k', '='] ++ List.replicate 252 'a').drop (1 + 1)) =
      [(['k'], List.replicate 252 'a')] := by decide
  have hstep1 : readKwargsAux (writeKwargs [(['k'], List.replicate 253 'a')]) [] =
      readKwargsAux ['\n', '=', '\n'] [(['k'], List.replicate 252 'a')] := by
    rw [readKwargsAux_step _ _ (by decide), hr1]
    dsimp only
    rw [if_neg (by decide), hfind, if_neg (by decide), if_pos (by decide), hins]
  have hr2 : readString ['\n', '=', '\n'] = ([], ['=', '\n']) := by decide
  have hstep2 : readKwargsAux ['\n', '=', '\n'] [(['k'], List.replicate 252 'a')] =
      ([(['k'], List.replicate 252 'a')], ['=', '\n']) := by
    rw [readKwargsAux_step _ _ (by decide), hr2]
    dsimp only
    rw [if_pos (by decide)]
  have hval : readKwargs (writeKwargs [(['k'], List.replicate 253 'a')]) =
      ([(['k'], List.replicate 252 'a')], ['=', '\n']) := by
    rw [readKwargs, hstep1, hstep2]
  rw [hval]
  decide

/-! ### Interleaving lemmas -/

theorem flatMap_congr {α β : Type} (l : List α) (f g : α → List β)
    (h : ∀ x ∈ l, f x = g x) : l.flatMap f = l.flatMap g := by
  induction l with
  | nil => rfl
  | cons x xs ih =>
    simp only [List.flatMap_cons]
    rw [h x (by simp), ih fun y hy => h y (by simp [hy])]

theorem flatMap_uniform_length {α : Type} (L : List α) (f : α → List Nat) (k : Nat)
    (h : ∀ x ∈ L, (f x).length = k) : (L.flatMap f).length = L.length * k := by
  induction L with
  | nil => simp
  | cons x xs ih =>
    simp only [List.flatMap_cons, List.length_append, List.length_cons]
    rw [h x (by simp), ih fun y hy => h y (by simp [hy])]
    ring

theorem chunks_reassemble (fSize : Nat) : ∀ (n : Nat) (l : List Nat),
    l.length = n * fSize →
    (List.range n).flatMap (fun e => (l.drop (e * fSize)).take fSize) = l := by
  intro n
  induction n with
  | zero =>
    intro l hl
    have hnil : l = [] := List.length_eq_zero.mp (by simpa using hl)
    simp [hnil]
  | succ n ih =>
    intro l hl
    rw [List.range_succ_eq_map]
    simp only [List.flatMap_cons, List.flatMap_map]
    have h2 : ∀ e ∈ List.range n,
        (l.drop (Nat.succ e * fSize)).take fSize =
          ((l.drop fSize).drop (e * fSize)).take fSize := by
      intro e _
      rw [List.drop_drop]
      have harg : Nat.succ e * fSize = fSize + e * fSize := by
        rw [Nat.succ_mul]
        omega
      rw [harg]
    rw [flatMap_congr _ _ _ h2]
    rw [ih (l.drop fSize)
      (by rw [List.length_drop, hl, Nat.add_mul, one_mul, Nat.add_sub_cancel])]
    simp [List.take_append_drop]

theorem interleave_slice (fSize nread numChans : Nat) (buffs : List (List Nat))
    (hnc : buffs.length = numChans)
    (hlen : ∀ cb ∈ buffs, cb.length = nread * fSize)
    (e c : Nat) (he : e < nread) (hc : c < numChans) :
    ((interleave fSize nread buffs).drop ((e * numChans + c) * fSize)).take fSize =
      ((buffs.getD c []).drop (e * fSize)).take fSize := by
  have hslice : ∀ i, i < nread → ∀ cb ∈ buffs,
      ((cb.drop (i * fSize)).take fSize).length = fSize := by
    intro i hi cb hcb
    rw [List.length_take, List.length_drop, hlen cb hcb]
    have hmul : (i + 1) * fSize ≤ nread * fSize := Nat.mul_le_mul_right _ hi
    rw [Nat.add_mul, one_mul] at hmul
    rw [Nat.min_eq_left (by omega)]
  set G : List Nat → List Nat := fun cb => (cb.drop (e * fSize)).take fSize with hG
  set F : Nat → List Nat :=
    fun i => buffs.flatMap fun cb => (cb.drop (i * fSize)).take fSize with hF
  have hFlen : ∀ i, i < nread → (F i).length = numChans * fSize := by
    intro i hi
    rw [hF]
    rw [flatMap_uniform_length buffs _ fSize fun cb hcb => hslice i hi cb hcb, hnc]
  have hintl : interleave fSize nread buffs = (List.range nread).flatMap F := rfl
  have hrange : List.range nread =
      List.range e ++ List.map (fun x => e + x) (List.range (nread - e)) := by
    rw [← List.range_add]
    congr 1
    omega
  have hAlen : ((List.range e).flatMap F).length = e * (numChans * fSize) := by
    rw [flatMap_uniform_length _ _ (numChans * fSize)
      fun i hi2 => hFlen i (by have := List.mem_range.mp hi2; omega)]
    rw [List.length_range]
  have hidx : (e * numChans + c) * fSize = ((List.range e).flatMap F).length + c * fSize := by
    rw [hAlen]
    ring
  rw [hintl, hrange, List.flatMap_append, hidx, List.drop_append]
  have hre : nread - e = (nread - e - 1) + 1 := by omega
  rw [hre, List.range_succ_eq_map]
  simp only [List.map_cons, List.map_map, List.flatMap_cons, Nat.add_zero]
  rw [List.drop_append_of_le_length
    (by rw [hFlen e he]; exact Nat.mul_le_mul_right _ (le_of_lt hc))]
  have hcfs : (c + 1) * fSize ≤ numChans * fSize := Nat.mul_le_mul_right _ hc
  rw [Nat.add_mul, one_mul] at hcfs
  rw [List.take_append_of_le_length
    (by rw [List.length_drop, hFlen e he]; omega)]
  have hcb : c < buffs.length := by omega
  have hsplit : buffs = buffs.take c ++ buffs.getD c [] :: buffs.drop (c + 1) := by
    rw [List.getD_eq_getElem _ _ hcb]
    conv_lhs => rw [← List.take_append_drop c buffs]
    rw [List.drop_eq_getElem_cons hcb]
  have hFe : F e = (buffs.take c).flatMap G ++
      (G (buffs.getD c []) ++ (buffs.drop (c + 1)).flatMap G) := by
    have hsp : buffs.flatMap G = (buffs.take c).flatMap G ++
        (G (buffs.getD c []) ++ (buffs.drop (c + 1)).flatMap G) := by
      conv_lhs => rw [hsplit]
      rw [List.flatMap_append, List.flatMap_cons]
    exact hsp
  have hA2 : ((buffs.take c).flatMap G).length = c * fSize := by
    rw [flatMap_uniform_length _ _ fSize
      fun cb hcb2 => hslice e he cb ((List.take_sublist c buffs).subset hcb2)]
    rw [List.length_take, Nat.min_eq_left (by omega)]
  have hGlen : (G (buffs.getD c [])).length = fSize := by
    apply hslice e he
    rw [List.getD_eq_getElem _ _ hcb]
    exact List.getElem_mem _
  rw [hFe]
  rw [show c * fSize = ((buffs.take c).flatMap G).length + 0 by rw [hA2]; omega]
  rw [List.drop_append 0, List.drop_zero]
  rw [List.take_append_of_le_length (le_of_eq hGlen.symm)]
  rw [List.take_of_length_le (le_of_eq hGlen)]

/-- Helper: the copy loop inverts the server interleave when its loop bound
is the element count `nread` — the bound `readStream` would need.  The bound
the code actually computes is the frame count (`readStreamElems`), which
equals `nread` only for a single channel. -/
theorem interleave_deinterleave_roundtrip (fSize nread numChans : Nat)
    (buffs : List (List Nat)) (hnc : buffs.length = numChans)
    (hlen : ∀ cb ∈ buffs, cb.length = nread * fSize)
    (c : Nat) (hc : c < numChans) :
    deinterleaveChan fSize numChans nread c (interleave fSize nread buffs) =
      buffs.getD c [] := by
  unfold deinterleaveChan
  rw [flatMap_congr _ _ _ fun e hee =>
    interleave_slice fSize nread numChans buffs hnc hlen e c (List.mem_range.mp hee) hc]
  have hmem : buffs.getD c [] ∈ buffs := by
    rw [List.getD_eq_getElem _ _ (show c < buffs.length by omega)]
    exact List.getElem_mem _
  exact chunks_reassemble fSize nread (buffs.getD c []) (hlen _ hmem)

/-- With a single channel the frame count the code computes equals the
element count, so `readStream`'s copy loop does invert the server
interleave. -/
theorem readStream_single_channel_roundtrip (fSize nread : Nat) (hf : fSize ≠ 0)
    (cb : List Nat) (hlen : cb.length = nread * fSize) :
    readStreamChan fSize 1 0 (interleave fSize nread [cb]) = cb := by
  have hblock : ∀ i, i < nread → (([cb] : List (List Nat)).flatMap
      (fun cb2 => (cb2.drop (i * fSize)).take fSize)).length = fSize := by
    intro i hi
    simp only [List.flatMap_cons, List.flatMap_nil, List.append_nil]
    rw [List.length_take, List.length_drop, hlen]
    have hmul : (i + 1) * fSize ≤ nread * fSize := Nat.mul_le_mul_right _ hi
    rw [Nat.add_mul, one_mul] at hmul
    rw [Nat.min_eq_left (by omega)]
  have hwlen : (interleave fSize nread [cb]).length = nread * fSize := by
    unfold interleave
    rw [flatMap_uniform_length _ _ fSize
      (fun i hi => hblock i (List.mem_range.mp hi)), List.length_range]
  unfold readStreamChan readStreamElems
  rw [hwlen, Nat.mul_div_cancel _ (Nat.pos_of_ne_zero hf)]
  exact interleave_deinterleave_roundtrip fSize nread 1 [cb] rfl
    (by
      intro x hx
      rw [List.mem_singleton] at hx
      rw [hx, hlen]) 0 (by omega)

/-- C4 (code evaluation at the failing input): two channels, one 2-byte
element each.  The server's interleave puts 2 frames (4 bytes) on the wire;
the client computes `status = 4 / 2 = 2` — the frame count, not the element
count 1 (line 359 divides by `fSize`, not by `blkSize`) — so the copy loop
runs twice, consuming `status * numChans = 4` frames (8 bytes) where only 4
bytes were received (overrunning its own wire buffer), storing
`status * fSize = 4` bytes into each 2-byte caller channel buffer
(overrunning them), and returning `status = 2` elements instead of 1. -/
theorem readStream_status_counts_frames :
    interleave 2 1 [[1, 2], [3, 4]] = [1, 2, 3, 4] ∧
    readStreamElems 2 (interleave 2 1 [[1, 2], [3, 4]]) = 2 ∧
    (2 : Nat) ≠ 1 ∧
    readStreamElems 2 (interleave 2 1 [[1, 2], [3, 4]]) * (2 * 2) = 8 ∧
    (interleave 2 1 [[1, 2], [3, 4]]).length = 4 ∧
    readStreamElems 2 (interleave 2 1 [[1, 2], [3, 4]]) * 2 = 4 ∧
    ([1, 2] : List Nat).length = 2 := by
  decide

end SoapyTCP
